/-
Verification of the framebuffer display driver
(src/arch/x86_64/src/device/display.rs).

Shallow embedding notes:
- `u32` pixel values, `usize` coordinates and `u8` font bytes are modelled
  as `Nat`; none of the arithmetic in the driver overflows `usize`/`u32`
  under the preconditions of the claims, and the clamping in `rect` and the
  guards in `char` are translated literally.
- The pixel buffer `data: &'static mut [u32]` is a `List Nat`; Rust slice
  indexing/slicing panics when out of bounds, so every buffer write goes
  through a checked operation returning `Option` (`none` models the panic).
- The `FONT` static is `include_bytes!` data whose contents are not part of
  the source tree; it is passed as an explicit `List Nat` parameter.
- The `ransid::Console` text-state machine is an external crate; `write`
  is modelled as a function of the console state it reports after
  consuming the bytes (fields `w`, `h`, `redraw`, `changed`, `cursor`,
  `x`, `y`, `display` exactly as read by the renderer).
-/
import Mathlib

set_option maxRecDepth 8192

/-- The VBE mode info record (`#[repr(packed)] struct VBEModeInfo`),
field for field; all machine integers are modelled as `Nat`. -/
structure VBEModeInfo where
  attributes : Nat
  win_a : Nat
  win_b : Nat
  granularity : Nat
  winsize : Nat
  segment_a : Nat
  segment_b : Nat
  winfuncptr : Nat
  bytesperscanline : Nat
  xresolution : Nat
  yresolution : Nat
  xcharsize : Nat
  ycharsize : Nat
  numberofplanes : Nat
  bitsperpixel : Nat
  numberofbanks : Nat
  memorymodel : Nat
  banksize : Nat
  numberofimagepages : Nat
  unused : Nat
  redmasksize : Nat
  redfieldposition : Nat
  greenmasksize : Nat
  greenfieldposition : Nat
  bluemasksize : Nat
  bluefieldposition : Nat
  rsvdmasksize : Nat
  rsvdfieldposition : Nat
  directcolormodeinfo : Nat
  physbaseptr : Nat
  offscreenmemoryoffset : Nat
  offscreenmemsize : Nat
deriving DecidableEq

/-- `struct Display`: width and height in pixels and the row-major pixel
buffer of `u32` color cells.  The owned `Console` is passed separately to
`write` (see header note). -/
structure Display where
  width : Nat
  height : Nat
  data : List Nat
deriving DecidableEq

/-- Checked write of one pixel: models `self.data[i] = color`, which in
Rust panics when `i` is out of bounds. -/
def setChecked (data : List Nat) (i v : Nat) : Option (List Nat) :=
  if i < data.length then some (data.set i v) else none

/-- Fill `len` consecutive entries starting at `offset` with `color`
(the `for pixel in row.iter_mut()` loop body of `Display::rect`). -/
def fillRow (data : List Nat) (offset len color : Nat) : List Nat :=
  match len with
  | 0 => data
  | n + 1 => fillRow (data.set offset color) (offset + 1) n color

/-- Checked row fill: models `&mut self.data[offset..offset + len]`,
whose slice construction panics unless `offset + len <= data.len()`. -/
def fillRowChecked (data : List Nat) (offset len color : Nat) :
    Option (List Nat) :=
  if offset + len ≤ data.length then some (fillRow data offset len color)
  else none

/-- The `for y in start_y..end_y` loop of `Display::rect`, recursing over
the number of remaining rows. -/
def rectLoop (d : Display) (start_x len color y rows : Nat) :
    Option Display :=
  match rows with
  | 0 => some d
  | n + 1 => do
    let data' ← fillRowChecked d.data (y * d.width + start_x) len color
    rectLoop { d with data := data' } start_x len color (y + 1) n

/-- `Display::rect(x, y, w, h, color)`, translated literally:
`start_y = min(height-1, y)`, `end_y = min(height, y+h)`,
`start_x = min(width-1, x)`, `len = min(width, x+w) - start_x`, then fill
each row in `[start_y, end_y)`.  (The `usize` subtractions cannot
underflow when `width >= 1` and `height >= 1`, the regime of every claim;
`Nat` subtraction agrees there.) -/
def Display.rect (d : Display) (x y w h color : Nat) : Option Display :=
  let start_y := min (d.height - 1) y
  let end_y := min d.height (y + h)
  let start_x := min (d.width - 1) x
  let len := min d.width (x + w) - start_x
  rectLoop d start_x len color start_y (end_y - start_y)

/-- The `for col in 0..8` loop of `Display::char`: for each set bit
`(row_data >> (7 - col)) & 1 == 1` write `color` at `data[offset + col]`. -/
def charCols (data : List Nat) (offset rowData color col cols : Nat) :
    Option (List Nat) :=
  match cols with
  | 0 => some data
  | n + 1 => do
    let data' ←
      if (rowData >>> (7 - col)) &&& 1 = 1 then
        setChecked data (offset + col) color
      else
        some data
    charCols data' offset rowData color (col + 1) n

/-- The `for row in 0..16` loop of `Display::char`: read
`row_data = FONT[font_i + row]`, run the column loop, then advance
`offset` by one scan line (`offset += self.width`).  The font read is
guarded by `font_i + 16 <= FONT.len()` in `char`, so `getD _ 0` never
actually uses its default within the guarded call. -/
def charRows (d : Display) (offset : Nat) (font : List Nat)
    (font_i color row rows : Nat) : Option Display :=
  match rows with
  | 0 => some d
  | n + 1 => do
    let rowData := font.getD (font_i + row) 0
    let data' ← charCols d.data offset rowData color 0 8
    charRows { d with data := data' } (offset + d.width) font font_i color
      (row + 1) n

/-- `Display::char(x, y, character, color)`: no-op unless
`x + 8 <= width && y + 16 <= height`; glyph index `font_i = 16 * character`
(the Rust `character as usize` codepoint is the `Nat` argument); no-op
unless `font_i + 16 <= FONT.len()`; otherwise blit the 16×8 glyph. -/
def Display.char (d : Display) (x y character color : Nat)
    (font : List Nat) : Option Display :=
  if x + 8 ≤ d.width ∧ y + 16 ≤ d.height then
    let offset := y * d.width + x
    let font_i := 16 * character
    if font_i + 16 ≤ font.length then
      charRows d offset font font_i color 0 16
    else
      some d
  else
    some d

/-- One character cell of the `ransid` console grid
(`block.c`, `block.fg.data`, `block.bg.data`, `block.underlined`);
the character is its codepoint, so the space character is `32`. -/
structure Block where
  c : Nat
  fg : Nat
  bg : Nat
  underlined : Bool
deriving DecidableEq

/-- The read surface of the owned `ransid::Console` as used by
`Display::write`: cell-grid size `w × h`, the `redraw` and per-row
`changed` flags, cursor visibility and cell position, and the cell grid
`display` (row-major, indexed `y * w + x`). -/
structure ConsoleState where
  w : Nat
  h : Nat
  redraw : Bool
  changed : List Bool
  cursor : Bool
  x : Nat
  y : Nat
  display : List Block
deriving DecidableEq

/-- A single pixel-primitive invocation, for stating the per-cell drawing
order of `Display::write`. -/
inductive DrawOp where
  | rect (x y w h color : Nat)
  | char (x y c color : Nat)
deriving DecidableEq

/-- Run one primitive on a display. -/
def applyOp (d : Display) (font : List Nat) : DrawOp → Option Display
  | DrawOp.rect x y w h color => d.rect x y w h color
  | DrawOp.char x y c color => d.char x y c color font

/-- Run a list of primitives left to right. -/
def applyOps (d : Display) (font : List Nat) : List DrawOp → Option Display
  | [] => some d
  | op :: ops => do
    let d' ← applyOp d font op
    applyOps d' font ops

/-- The body of `Display::write`'s inner `for x in 0..self.console.w`
loop for one cell: read `block = console.display[y * w + x]` (a `Vec`
index, panicking when out of bounds, hence checked), swap `(bg, fg)` when
the visible cursor sits on this cell, fill the background rectangle, draw
the glyph when the character is not a space (codepoint 32), and draw the
underline strip when the block is underlined. -/
def drawBlock (d : Display) (st : ConsoleState) (font : List Nat)
    (x y : Nat) : Option Display := do
  let block ← st.display.get? (y * st.w + x)
  let bgfg :=
    if st.cursor ∧ st.y = y ∧ st.x = x then (block.fg, block.bg)
    else (block.bg, block.fg)
  let d1 ← d.rect (x * 8) (y * 16) 8 16 bgfg.1
  let d2 ←
    if block.c ≠ 32 then d1.char (x * 8) (y * 16) block.c bgfg.2 font
    else some d1
  if block.underlined then d2.rect (x * 8) (y * 16 + 14) 8 1 bgfg.2
  else some d2

/-- The `for x in 0..self.console.w` loop over the cells of row `y`. -/
def colLoop (d : Display) (st : ConsoleState) (font : List Nat)
    (y x cols : Nat) : Option Display :=
  match cols with
  | 0 => some d
  | n + 1 => do
    let d' ← drawBlock d st font x y
    colLoop d' st font y (x + 1) n

/-- The `for y in 0..self.console.h` loop of `Display::write`: skip rows
whose `changed` flag is clear, and for a changed row clear the flag and
redraw every cell of the row. -/
def rowLoop (d : Display) (st : ConsoleState) (font : List Nat)
    (y rows : Nat) : Option (Display × ConsoleState) :=
  match rows with
  | 0 => some (d, st)
  | n + 1 => do
    let c ← st.changed.get? y
    if c then
      let st' := { st with changed := st.changed.set y false }
      let d' ← colLoop d st' font y 0 st'.w
      rowLoop d' st' font (y + 1) n
    else
      rowLoop d st font (y + 1) n

/-- `Display::write(bytes)` after the `self.console.write(bytes)` call:
`st` is the state the text-state machine reports once it has consumed the
bytes (the machine itself is the external `ransid` crate).  If `redraw`
is clear nothing happens; otherwise `redraw` is cleared and every changed
row is redrawn. -/
def Display.write (d : Display) (st : ConsoleState) (font : List Nat) :
    Option (Display × ConsoleState) :=
  if st.redraw then
    rowLoop d { st with redraw := false } font 0 st.h
  else
    some (d, st)

/-- `entry::PRESENT | entry::WRITABLE | entry::NO_EXECUTE` page-table
permission bits, as an abstract flag record. -/
structure EntryFlags where
  present : Bool
  writable : Bool
  noExecute : Bool
deriving DecidableEq

/-- One externally visible side effect of `init` / `init_ap`:
an `active_table.identity_map(frame, flags)` call, the
`memset(start, 0, len)` bulk zero, or storing the constructed `Display`
into the `DISPLAY` registry (`*DISPLAY.lock() = Some(..)`). -/
inductive InitEffect where
  | identityMap (frame : Nat) (flags : EntryFlags)
  | memsetZero (start len : Nat)
  | registryStore (width height start : Nat)
deriving DecidableEq

/-- Modelled from the spec: the page-table collaborator (`paging::Frame`)
is not part of the supplied sources; the spec describes it as iterating
"the inclusive range of physical pages" of the architecture, whose page
size is 4096 bytes. -/
def PAGE_SIZE : Nat := 4096

/-- Modelled from the spec: `Frame::containing_address(addr)` — the index
of the physical page containing `addr`. -/
def frameContaining (addr : Nat) : Nat := addr / PAGE_SIZE

/-- Modelled from the spec: `Frame::range_inclusive(s, e)` — the frames
from `s` to `e` inclusive, in order. -/
def frameRangeInclusive (s e : Nat) : List Nat :=
  (List.range (e + 1 - s)).map fun i => s + i

/-- `init(active_table)` as its trace of side effects, in program order:
map the mode-info page at `0x5200` as `PRESENT | NO_EXECUTE`; read the
`VBEModeInfo` record; if `physbaseptr > 0`, identity-map every physical
page of the `width * height * 4`-byte framebuffer as
`PRESENT | WRITABLE | NO_EXECUTE`, zero the region with `memset`, and
store the new `Display` into the `DISPLAY` registry. -/
def init (mi : VBEModeInfo) : List InitEffect :=
  InitEffect.identityMap (frameContaining 0x5200)
      ⟨true, false, true⟩ ::
    (if mi.physbaseptr > 0 then
      let width := mi.xresolution
      let height := mi.yresolution
      let start := mi.physbaseptr
      let size := width * height
      ((frameRangeInclusive (frameContaining start)
            (frameContaining (start + size * 4 - 1))).map fun f =>
          InitEffect.identityMap f ⟨true, true, true⟩) ++
        [InitEffect.memsetZero start (size * 4),
          InitEffect.registryStore width height start]
    else [])

/-- `init_ap(active_table)` as its trace of side effects: identical to
`init` up to and including the framebuffer page mappings, with no
`memset` and no registry store. -/
def init_ap (mi : VBEModeInfo) : List InitEffect :=
  InitEffect.identityMap (frameContaining 0x5200)
      ⟨true, false, true⟩ ::
    (if mi.physbaseptr > 0 then
      let width := mi.xresolution
      let height := mi.yresolution
      let start := mi.physbaseptr
      let size := width * height
      (frameRangeInclusive (frameContaining start)
          (frameContaining (start + size * 4 - 1))).map fun f =>
        InitEffect.identityMap f ⟨true, true, true⟩
    else [])

/-! ### Row-major index arithmetic -/

theorem index_div (width a b : Nat) (hb : b < width) :
    (a * width + b) / width = a := by
  have hw : 0 < width := Nat.lt_of_le_of_lt (Nat.zero_le b) hb
  rw [Nat.mul_comm a width, Nat.mul_add_div hw, Nat.div_eq_of_lt hb,
    Nat.add_zero]

theorem index_mod (width a b : Nat) (hb : b < width) :
    (a * width + b) % width = b := by
  rw [Nat.mul_comm a width, Nat.mul_add_mod, Nat.mod_eq_of_lt hb]

/-- An index lies in the contiguous run of row `y` starting at `start_x`
of length `len` iff its row-major coordinates do. -/
theorem run_mem_iff (width y start_x len i : Nat)
    (hlen : start_x + len ≤ width) :
    (y * width + start_x ≤ i ∧ i < y * width + start_x + len) ↔
      (i / width = y ∧ start_x ≤ i % width ∧ i % width < start_x + len) := by
  constructor
  · rintro ⟨h1, h2⟩
    have hb : i = y * width + (i - y * width) := by omega
    have hblt : i - y * width < width := by omega
    have hd := index_div width y (i - y * width) hblt
    have hm := index_mod width y (i - y * width) hblt
    rw [← hb] at hd hm
    exact ⟨hd, by omega, by omega⟩
  · rintro ⟨h1, h2, h3⟩
    have hdm := Nat.div_add_mod i width
    rw [h1] at hdm
    have hc : y * width = width * y := Nat.mul_comm y width
    omega

/-! ### `fillRow` and `rectLoop` -/

theorem fillRow_length (data : List Nat) (offset len color : Nat) :
    (fillRow data offset len color).length = data.length := by
  induction len generalizing data offset with
  | zero => rfl
  | succ n ih => simp [fillRow, ih]

theorem fillRow_getElem? (data : List Nat) (offset len color : Nat)
    (hle : offset + len ≤ data.length) (i : Nat) :
    (fillRow data offset len color)[i]? =
      if offset ≤ i ∧ i < offset + len then some color else data[i]? := by
  induction len generalizing data offset with
  | zero =>
    rw [if_neg (by omega)]
    rfl
  | succ n ih =>
    show (fillRow (data.set offset color) (offset + 1) n color)[i]? = _
    rw [ih (data.set offset color) (offset + 1) (by simp; omega)]
    by_cases h1 : offset + 1 ≤ i ∧ i < offset + 1 + n
    · rw [if_pos h1, if_pos (by omega)]
    · rw [if_neg h1]
      by_cases h2 : i = offset
      · subst h2
        rw [List.getElem?_set_self (by omega), if_pos (by omega)]
      · rw [List.getElem?_set_ne (fun hne => h2 hne.symm),
          if_neg (by omega)]

theorem rectLoop_spec (start_x len color : Nat) :
    ∀ (rows y : Nat) (d : Display),
      d.data.length = d.width * d.height →
      start_x + len ≤ d.width →
      y + rows ≤ d.height →
      ∃ d', rectLoop d start_x len color y rows = some d' ∧
        d'.width = d.width ∧ d'.height = d.height ∧
        d'.data.length = d.data.length ∧
        ∀ i, d'.data[i]? =
          if y ≤ i / d.width ∧ i / d.width < y + rows ∧
             start_x ≤ i % d.width ∧ i % d.width < start_x + len
          then some color else d.data[i]? := by
  intro rows
  induction rows with
  | zero =>
    intro y d _ _ _
    exact ⟨d, rfl, rfl, rfl, rfl, fun i => (if_neg (by omega)).symm⟩
  | succ n ih =>
    intro y d hdata hlen hrows
    have hsucc : (y + 1) * d.width = y * d.width + d.width :=
      Nat.succ_mul y d.width
    have hmul : (y + 1) * d.width ≤ d.height * d.width :=
      Nat.mul_le_mul_right _ (by omega)
    have hwh : d.width * d.height = d.height * d.width :=
      Nat.mul_comm _ _
    have hoff : y * d.width + start_x + len ≤ d.data.length := by omega
    obtain ⟨d', hrun, hw', hh', hlen', hchar⟩ :=
      ih (y + 1)
        { d with data := fillRow d.data (y * d.width + start_x) len color }
        (by simpa [fillRow_length] using hdata) hlen
        (by show y + 1 + n ≤ d.height; omega)
    have hd1 :
        ({ d with
            data := fillRow d.data (y * d.width + start_x) len color } :
          Display).data =
          fillRow d.data (y * d.width + start_x) len color := rfl
    have hd1w :
        ({ d with
            data := fillRow d.data (y * d.width + start_x) len color } :
          Display).width = d.width := rfl
    refine ⟨d', ?_, hw', hh', ?_, ?_⟩
    · show (fillRowChecked d.data (y * d.width + start_x) len color).bind
          (fun data' =>
            rectLoop { d with data := data' } start_x len color (y + 1) n) =
        some d'
      rw [fillRowChecked, if_pos hoff, Option.some_bind]
      exact hrun
    · rw [hlen', hd1, fillRow_length]
    · intro i
      have hfill :=
        fillRow_getElem? d.data (y * d.width + start_x) len color hoff i
      have hiff := run_mem_iff d.width y start_x len i hlen
      rw [hd1, hd1w] at hchar
      rw [hchar i]
      by_cases h1 : y + 1 ≤ i / d.width ∧ i / d.width < y + 1 + n ∧
          start_x ≤ i % d.width ∧ i % d.width < start_x + len
      · rw [if_pos h1, if_pos (by omega)]
      · rw [if_neg h1, hfill]
        by_cases h2 : y * d.width + start_x ≤ i ∧
            i < y * d.width + start_x + len
        · obtain ⟨he, hp1, hp2⟩ := hiff.mp h2
          rw [if_pos h2, if_pos (by omega)]
        · rw [if_neg h2]
          rw [if_neg ?_]
          intro hc
          rcases Nat.lt_or_ge (i / d.width) (y + 1) with hlt | hge
          · exact h2 (hiff.mpr ⟨by omega, hc.2.2.1, hc.2.2.2⟩)
          · exact h1 ⟨hge, by omega, hc.2.2.1, hc.2.2.2⟩

/-- Full functional characterization of `Display.rect` under the Display
invariant: it succeeds (no out-of-bounds slice is ever formed) and paints
exactly the clamped rectangle. -/
theorem rect_spec (d : Display) (x y w h color : Nat)
    (hw : 1 ≤ d.width) (hh : 1 ≤ d.height)
    (hdata : d.data.length = d.width * d.height) :
    ∃ d', d.rect x y w h color = some d' ∧
      d'.width = d.width ∧ d'.height = d.height ∧
      d'.data.length = d.data.length ∧
      ∀ i, d'.data[i]? =
        if min (d.height - 1) y ≤ i / d.width ∧
           i / d.width < min d.height (y + h) ∧
           min (d.width - 1) x ≤ i % d.width ∧
           i % d.width < min d.width (x + w)
        then some color else d.data[i]? := by
  obtain ⟨d', hrun, hw', hh', hlen', hchar⟩ :=
    rectLoop_spec (min (d.width - 1) x)
      (min d.width (x + w) - min (d.width - 1) x) color
      (min d.height (y + h) - min (d.height - 1) y) (min (d.height - 1) y) d
      hdata (by omega) (by omega)
  refine ⟨d', hrun, hw', hh', hlen', ?_⟩
  intro i
  rw [hchar i]
  exact if_congr (by omega) rfl rfl

/-- C1: on a well-formed display (`width ≥ 1`, `height ≥ 1`, buffer of
length `width * height`), `rect` succeeds for every `(x, y, w, h)` —
success of the checked embedding means no slice of the pixel buffer is
ever formed outside `[0, width*height)` — and every buffer entry it
changes sits at a row-major index whose coordinates lie inside
`[0, width) × [0, height)`. -/
theorem rect_writes_only_in_bounds (d : Display) (x y w h color : Nat)
    (hw : 1 ≤ d.width) (hh : 1 ≤ d.height)
    (hdata : d.data.length = d.width * d.height) :
    ∃ d', d.rect x y w h color = some d' ∧
      ∀ i, d'.data[i]? ≠ d.data[i]? →
        i / d.width < d.height ∧ i % d.width < d.width ∧
        i = (i / d.width) * d.width + i % d.width ∧
        i < d.width * d.height := by
  obtain ⟨d', hrun, _, _, _, hchar⟩ := rect_spec d x y w h color hw hh hdata
  refine ⟨d', hrun, ?_⟩
  intro i hne
  rw [hchar i] at hne
  by_cases hc : min (d.height - 1) y ≤ i / d.width ∧
      i / d.width < min d.height (y + h) ∧
      min (d.width - 1) x ≤ i % d.width ∧ i % d.width < min d.width (x + w)
  · have hpy : i / d.width < d.height := by omega
    have hpx : i % d.width < d.width := by omega
    have hdm := Nat.div_add_mod i d.width
    have hcomm : (i / d.width) * d.width = d.width * (i / d.width) :=
      Nat.mul_comm _ _
    have h1 : d.width * (i / d.width + 1) ≤ d.width * d.height :=
      Nat.mul_le_mul_left _ (by omega)
    have h2 : d.width * (i / d.width + 1) =
        d.width * (i / d.width) + d.width := Nat.mul_succ _ _
    exact ⟨hpy, hpx, by omega, by omega⟩
  · rw [if_neg hc] at hne
    exact absurd rfl hne

theorem rect_writes_only_in_bounds_witness :
    (1 ≤ (⟨2, 2, [0, 0, 0, 0]⟩ : Display).width) ∧
    (1 ≤ (⟨2, 2, [0, 0, 0, 0]⟩ : Display).height) ∧
    ((⟨2, 2, [0, 0, 0, 0]⟩ : Display).data.length =
      (⟨2, 2, [0, 0, 0, 0]⟩ : Display).width *
        (⟨2, 2, [0, 0, 0, 0]⟩ : Display).height) ∧
    (∃ d', (⟨2, 2, [0, 0, 0, 0]⟩ : Display).rect 5 7 100 0 3 = some d' ∧
      ∀ i, d'.data[i]? ≠ (⟨2, 2, [0, 0, 0, 0]⟩ : Display).data[i]? →
        i / 2 < 2 ∧ i % 2 < 2 ∧ i = (i / 2) * 2 + i % 2 ∧ i < 2 * 2) :=
  ⟨by decide, by decide, by decide,
    rect_writes_only_in_bounds ⟨2, 2, [0, 0, 0, 0]⟩ 5 7 100 0 3 (by decide)
      (by decide) (by decide)⟩

/-- C2: `rect` sets to `color` exactly the pixels `(px, py)` with
`start_x ≤ px < start_x + len` and `start_y ≤ py < end_y` for
`start_y = min(height-1, y)`, `end_y = min(height, y+h)`,
`start_x = min(width-1, x)`, `len = min(width, x+w) - start_x`, leaving
every other pixel unchanged; and on a 640-wide buffer
`rect(width-1, 0, 100, 1, C)` writes exactly the single pixel at column
`width-1` of row 0. -/
theorem rect_sets_exactly_clamped (d : Display) (x y w h color : Nat)
    (hw : 1 ≤ d.width) (hh : 1 ≤ d.height)
    (hdata : d.data.length = d.width * d.height) :
    (∃ d', d.rect x y w h color = some d' ∧
      ∀ px py, px < d.width → py < d.height →
        d'.data[py * d.width + px]? =
          if min (d.width - 1) x ≤ px ∧
             px < min (d.width - 1) x +
               (min d.width (x + w) - min (d.width - 1) x) ∧
             min (d.height - 1) y ≤ py ∧ py < min d.height (y + h)
          then some color else d.data[py * d.width + px]?) ∧
    (d.width = 640 →
      ∃ d', d.rect (d.width - 1) 0 100 1 color = some d' ∧
        ∀ px py, px < d.width → py < d.height →
          d'.data[py * d.width + px]? =
            if px = d.width - 1 ∧ py = 0 then some color
            else d.data[py * d.width + px]?) := by
  constructor
  · obtain ⟨d', hrun, _, _, _, hchar⟩ := rect_spec d x y w h color hw hh hdata
    refine ⟨d', hrun, ?_⟩
    intro px py hpx hpy
    rw [hchar (py * d.width + px), index_div d.width py px hpx,
      index_mod d.width py px hpx]
    exact if_congr (by omega) rfl rfl
  · intro h640
    obtain ⟨d', hrun, _, _, _, hchar⟩ :=
      rect_spec d (d.width - 1) 0 100 1 color hw hh hdata
    refine ⟨d', hrun, ?_⟩
    intro px py hpx hpy
    rw [hchar (py * d.width + px), index_div d.width py px hpx,
      index_mod d.width py px hpx]
    exact if_congr (by omega) rfl rfl

theorem rect_sets_exactly_clamped_witness :
    (1 ≤ (⟨3, 2, [0, 0, 0, 0, 0, 0]⟩ : Display).width) ∧
    (1 ≤ (⟨3, 2, [0, 0, 0, 0, 0, 0]⟩ : Display).height) ∧
    ((⟨3, 2, [0, 0, 0, 0, 0, 0]⟩ : Display).data.length = 3 * 2) ∧
    ((∃ d', (⟨3, 2, [0, 0, 0, 0, 0, 0]⟩ : Display).rect 1 0 2 1 9 =
        some d' ∧
      ∀ px py, px < 3 → py < 2 →
        d'.data[py * 3 + px]? =
          if min (3 - 1) 1 ≤ px ∧
             px < min (3 - 1) 1 + (min 3 (1 + 2) - min (3 - 1) 1) ∧
             min (2 - 1) 0 ≤ py ∧ py < min 2 (0 + 1)
          then some 9
          else (⟨3, 2, [0, 0, 0, 0, 0, 0]⟩ : Display).data[py * 3 + px]?) ∧
      (3 = 640 → ∃ d',
        (⟨3, 2, [0, 0, 0, 0, 0, 0]⟩ : Display).rect (3 - 1) 0 100 1 9 =
          some d' ∧
        ∀ px py, px < 3 → py < 2 →
          d'.data[py * 3 + px]? =
            if px = 3 - 1 ∧ py = 0 then some 9
            else (⟨3, 2, [0, 0, 0, 0, 0, 0]⟩ :
              Display).data[py * 3 + px]?)) :=
  ⟨by decide, by decide, by decide,
    rect_sets_exactly_clamped ⟨3, 2, [0, 0, 0, 0, 0, 0]⟩ 1 0 2 1 9
      (by decide) (by decide) (by decide)⟩

/-- C9: with `w ≥ 1` and `h ≥ 1`, a `rect` whose origin lies fully
outside the buffer is not a no-op: `x ≥ width` clamps the x-range to the
single column `width-1`, `y ≥ height` clamps the y-range to the single
row `height-1`, and the pixel at the clamped start corner is always
overwritten with `color`. -/
theorem rect_outside_origin_not_noop (d : Display) (x y w h color : Nat)
    (hw : 1 ≤ d.width) (hh : 1 ≤ d.height)
    (hdata : d.data.length = d.width * d.height)
    (hw1 : 1 ≤ w) (hh1 : 1 ≤ h) :
    (d.width ≤ x →
      min (d.width - 1) x = d.width - 1 ∧
      min d.width (x + w) - min (d.width - 1) x = 1) ∧
    (d.height ≤ y →
      min (d.height - 1) y = d.height - 1 ∧
      min d.height (y + h) = d.height ∧
      min d.height (y + h) - min (d.height - 1) y = 1) ∧
    ∃ d', d.rect x y w h color = some d' ∧
      d'.data[min (d.height - 1) y * d.width + min (d.width - 1) x]? =
        some color := by
  refine ⟨fun hx => ⟨by omega, by omega⟩,
    fun hy => ⟨by omega, by omega, by omega⟩, ?_⟩
  obtain ⟨d', hrun, _, _, _, hchar⟩ := rect_spec d x y w h color hw hh hdata
  refine ⟨d', hrun, ?_⟩
  have hpx : min (d.width - 1) x < d.width := by omega
  rw [hchar _, index_div d.width _ _ hpx, index_mod d.width _ _ hpx,
    if_pos (by omega)]

theorem rect_outside_origin_not_noop_witness :
    (1 ≤ (⟨2, 2, [0, 0, 0, 0]⟩ : Display).width) ∧
    (1 ≤ (⟨2, 2, [0, 0, 0, 0]⟩ : Display).height) ∧
    ((⟨2, 2, [0, 0, 0, 0]⟩ : Display).data.length = 2 * 2) ∧
    (1 ≤ 1 ∧ 1 ≤ 1) ∧
    ((2 ≤ 10 → min (2 - 1) 10 = 2 - 1 ∧
        min 2 (10 + 1) - min (2 - 1) 10 = 1) ∧
      (2 ≤ 10 → min (2 - 1) 10 = 2 - 1 ∧ min 2 (10 + 1) = 2 ∧
        min 2 (10 + 1) - min (2 - 1) 10 = 1) ∧
      ∃ d', (⟨2, 2, [0, 0, 0, 0]⟩ : Display).rect 10 10 1 1 5 = some d' ∧
        d'.data[min (2 - 1) 10 * 2 + min (2 - 1) 10]? = some 5) :=
  ⟨by decide, by decide, by decide, ⟨le_refl 1, le_refl 1⟩,
    rect_outside_origin_not_noop ⟨2, 2, [0, 0, 0, 0]⟩ 10 10 1 1 5
      (by decide) (by decide) (by decide) (by decide) (by decide)⟩

/-! ### `charCols` and `charRows` -/

/-- Two row-major indices with in-range columns and different rows
differ. -/
theorem row_index_ne (width a b a' b' : Nat) (hb : b < width)
    (hb' : b' < width) (ha : a ≠ a') :
    a * width + b ≠ a' * width + b' := by
  intro he
  have h1 := index_div width a b hb
  have h2 := index_div width a' b' hb'
  rw [he] at h1
  omega

theorem charCols_spec (offset rowData color : Nat) :
    ∀ (cols col : Nat) (data : List Nat),
      offset + col + cols ≤ data.length →
      ∃ data', charCols data offset rowData color col cols = some data' ∧
        data'.length = data.length ∧
        (∀ k, col ≤ k → k < col + cols →
          data'[offset + k]? =
            if (rowData >>> (7 - k)) &&& 1 = 1 then some color
            else data[offset + k]?) ∧
        (∀ i, (∀ k, col ≤ k → k < col + cols → i ≠ offset + k) →
          data'[i]? = data[i]?) := by
  intro cols
  induction cols with
  | zero =>
    intro col data _
    exact ⟨data, rfl, rfl, fun k hk1 hk2 => absurd hk2 (by omega),
      fun i _ => rfl⟩
  | succ n ih =>
    intro col data hle
    by_cases hbit : (rowData >>> (7 - col)) &&& 1 = 1
    · have hlt : offset + col < data.length := by omega
      obtain ⟨data', hrun, hlen, hin, hout⟩ :=
        ih (col + 1) (data.set (offset + col) color) (by simp; omega)
      refine ⟨data', ?_, by simpa using hlen, ?_, ?_⟩
      · simp only [charCols]
        rw [if_pos hbit, setChecked, if_pos hlt]
        exact hrun
      · intro k hk1 hk2
        by_cases hk : k = col
        · subst hk
          rw [hout (offset + k) (fun k' h1 h2 => by omega), if_pos hbit,
            List.getElem?_set_self hlt]
        · rw [hin k (by omega) (by omega)]
          by_cases hb2 : (rowData >>> (7 - k)) &&& 1 = 1
          · rw [if_pos hb2, if_pos hb2]
          · rw [if_neg hb2, if_neg hb2,
              List.getElem?_set_ne (by omega)]
      · intro i hi
        rw [hout i (fun k h1 h2 => hi k (by omega) (by omega)),
          List.getElem?_set_ne (Ne.symm (hi col (by omega) (by omega)))]
    · obtain ⟨data', hrun, hlen, hin, hout⟩ :=
        ih (col + 1) data (by omega)
      refine ⟨data', ?_, hlen, ?_, ?_⟩
      · simp only [charCols]
        rw [if_neg hbit]
        exact hrun
      · intro k hk1 hk2
        by_cases hk : k = col
        · subst hk
          rw [hout (offset + k) (fun k' h1 h2 => by omega), if_neg hbit]
        · exact hin k (by omega) (by omega)
      · intro i hi
        exact hout i fun k h1 h2 => hi k (by omega) (by omega)

theorem charRows_spec (font : List Nat) (font_i color x y0 : Nat) :
    ∀ (rows row : Nat) (d : Display),
      d.data.length = d.width * d.height →
      x + 8 ≤ d.width →
      y0 + row + rows ≤ d.height →
      ∃ d', charRows d ((y0 + row) * d.width + x) font font_i color row rows
          = some d' ∧
        d'.width = d.width ∧ d'.height = d.height ∧
        d'.data.length = d.data.length ∧
        (∀ r col, row ≤ r → r < row + rows → col < 8 →
          d'.data[(y0 + r) * d.width + (x + col)]? =
            if (font.getD (font_i + r) 0 >>> (7 - col)) &&& 1 = 1
            then some color
            else d.data[(y0 + r) * d.width + (x + col)]?) ∧
        (∀ i, (∀ r col, row ≤ r → r < row + rows → col < 8 →
            i ≠ (y0 + r) * d.width + (x + col)) →
          d'.data[i]? = d.data[i]?) := by
  intro rows
  induction rows with
  | zero =>
    intro row d _ _ _
    exact ⟨d, rfl, rfl, rfl, rfl,
      fun r col h1 h2 _ => absurd h2 (by omega), fun i _ => rfl⟩
  | succ n ih =>
    intro row d hdata hx hy
    have hsucc : (y0 + row + 1) * d.width = (y0 + row) * d.width + d.width :=
      Nat.succ_mul (y0 + row) d.width
    have hmul : (y0 + row + 1) * d.width ≤ d.height * d.width :=
      Nat.mul_le_mul_right _ (by omega)
    have hwh : d.width * d.height = d.height * d.width := Nat.mul_comm _ _
    have hb : (y0 + row) * d.width + x + 0 + 8 ≤ d.data.length := by omega
    obtain ⟨data1, hrun1, hlen1, hin1, hout1⟩ :=
      charCols_spec ((y0 + row) * d.width + x)
        (font.getD (font_i + row) 0) color 8 0 d.data hb
    obtain ⟨d', hrun, hw', hh', hlen', hin, hout⟩ :=
      ih (row + 1) { d with data := data1 }
        (by show data1.length = d.width * d.height; omega) hx
        (by show y0 + (row + 1) + n ≤ d.height; omega)
    have hoffs : (y0 + row) * d.width + x + d.width =
        (y0 + (row + 1)) * d.width + x := by
      have : y0 + (row + 1) = y0 + row + 1 := by omega
      rw [this]
      omega
    refine ⟨d', ?_, hw', hh', hlen'.trans hlen1, ?_, ?_⟩
    · simp only [charRows]
      rw [hrun1, hoffs]
      exact hrun
    · intro r col hr1 hr2 hcol
      by_cases hr : r = row
      · subst hr
        have hnot : ∀ r' col', r + 1 ≤ r' → r' < r + 1 + n → col' < 8 →
            (y0 + r) * d.width + (x + col) ≠
              (y0 + r') * d.width + (x + col') := by
          intro r' col' h1 h2 h3
          exact row_index_ne d.width (y0 + r) (x + col) (y0 + r')
            (x + col') (by omega) (by omega) (by omega)
        have hstep : d'.data[(y0 + r) * d.width + (x + col)]? =
            data1[(y0 + r) * d.width + (x + col)]? := hout _ hnot
        rw [hstep]
        have := hin1 col (by omega) (by omega)
        rw [Nat.add_assoc] at this
        exact this
      · have hagree : data1[(y0 + r) * d.width + (x + col)]? =
            d.data[(y0 + r) * d.width + (x + col)]? := by
          refine hout1 _ ?_
          intro k _ hk8 he
          have h1 := index_div d.width (y0 + r) (x + col) (by omega)
          have h2 := index_div d.width (y0 + row) (x + k) (by omega)
          rw [he, Nat.add_assoc] at h1
          omega
        have hstep : d'.data[(y0 + r) * d.width + (x + col)]? =
            if (font.getD (font_i + r) 0 >>> (7 - col)) &&& 1 = 1
            then some color
            else data1[(y0 + r) * d.width + (x + col)]? :=
          hin r col (by omega) (by omega) hcol
        rw [hstep, hagree]
    · intro i hi
      have hstep : d'.data[i]? = data1[i]? :=
        hout i fun r col h1 h2 h3 => hi r col (by omega) (by omega) h3
      rw [hstep]
      refine hout1 i ?_
      intro k _ hk8
      have := hi row k (by omega) (by omega) hk8
      omega

/-- C6: `char(x, y, codepoint, color)` leaves the buffer entirely
unchanged unless `x+8 ≤ width`, `y+16 ≤ height` and
`16*codepoint + 16 ≤ font length`; when all three hold, for each of the
16 glyph rows and 8 columns it writes `color` at pixel `(x+col, y+row)`
exactly when bit `7-col` of the font byte at index `16*codepoint + row`
is set, leaving pixels of unset bits untouched. -/
theorem char_glyph_exact (d : Display) (x y c color : Nat)
    (font : List Nat) (hdata : d.data.length = d.width * d.height) :
    ∃ d', d.char x y c color font = some d' ∧
      (¬(x + 8 ≤ d.width ∧ y + 16 ≤ d.height ∧
          16 * c + 16 ≤ font.length) →
        d'.data = d.data) ∧
      ((x + 8 ≤ d.width ∧ y + 16 ≤ d.height ∧
          16 * c + 16 ≤ font.length) →
        ∀ row col, row < 16 → col < 8 →
          d'.data[(y + row) * d.width + (x + col)]? =
            if (font.getD (16 * c + row) 0 >>> (7 - col)) &&& 1 = 1
            then some color
            else d.data[(y + row) * d.width + (x + col)]?) := by
  by_cases hpos : x + 8 ≤ d.width ∧ y + 16 ≤ d.height
  · by_cases hfont : 16 * c + 16 ≤ font.length
    · obtain ⟨d', hrun, hw', hh', hlen', hin, hout⟩ :=
        charRows_spec font (16 * c) color x y 16 0 d hdata hpos.1
          (by omega)
      refine ⟨d', ?_, fun hcon => absurd ⟨hpos.1, hpos.2, hfont⟩ hcon,
        fun _ row col hrow hcol => hin row col (by omega) (by omega) hcol⟩
      simp only [Display.char]
      rw [if_pos hpos, if_pos hfont,
        show y * d.width + x = (y + 0) * d.width + x by rw [Nat.add_zero]]
      exact hrun
    · refine ⟨d, ?_, fun _ => rfl, fun hcon => absurd hcon.2.2 hfont⟩
      simp only [Display.char]
      rw [if_pos hpos, if_neg hfont]
  · refine ⟨d, ?_, fun _ => rfl,
      fun hcon => absurd ⟨hcon.1, hcon.2.1⟩ hpos⟩
    simp only [Display.char]
    rw [if_neg hpos]

theorem char_glyph_exact_witness :
    ((⟨8, 16, List.replicate 128 0⟩ : Display).data.length =
      (⟨8, 16, List.replicate 128 0⟩ : Display).width *
        (⟨8, 16, List.replicate 128 0⟩ : Display).height) ∧
    ∃ d', (⟨8, 16, List.replicate 128 0⟩ : Display).char 0 0 0 3
        (List.replicate 16 255) = some d' ∧
      (¬(0 + 8 ≤ 8 ∧ 0 + 16 ≤ 16 ∧
          16 * 0 + 16 ≤ (List.replicate 16 (255 : Nat)).length) →
        d'.data = List.replicate 128 0) ∧
      ((0 + 8 ≤ 8 ∧ 0 + 16 ≤ 16 ∧
          16 * 0 + 16 ≤ (List.replicate 16 (255 : Nat)).length) →
        ∀ row col, row < 16 → col < 8 →
          d'.data[(0 + row) * 8 + (0 + col)]? =
            if ((List.replicate 16 (255 : Nat)).getD (16 * 0 + row) 0 >>>
                (7 - col)) &&& 1 = 1
            then some 3
            else (List.replicate 128 (0 : Nat))[(0 + row) * 8 +
              (0 + col)]?) :=
  ⟨by decide,
    char_glyph_exact ⟨8, 16, List.replicate 128 0⟩ 0 0 0 3
      (List.replicate 16 255) (by decide)⟩

/-- C10: `char` only ever modifies pixels inside the 8-wide by 16-tall
block `[x, x+8) × [y, y+16)`; every pixel outside that block keeps its
value, for every codepoint and color. -/
theorem char_outside_block_unchanged (d : Display) (x y c color : Nat)
    (font : List Nat) (hdata : d.data.length = d.width * d.height) :
    ∃ d', d.char x y c color font = some d' ∧
      ∀ px py, px < d.width → py < d.height →
        (px < x ∨ x + 8 ≤ px ∨ py < y ∨ y + 16 ≤ py) →
        d'.data[py * d.width + px]? = d.data[py * d.width + px]? := by
  by_cases hpos : x + 8 ≤ d.width ∧ y + 16 ≤ d.height
  · by_cases hfont : 16 * c + 16 ≤ font.length
    · obtain ⟨d', hrun, _, _, _, _, hout⟩ :=
        charRows_spec font (16 * c) color x y 16 0 d hdata hpos.1
          (by omega)
      refine ⟨d', ?_, ?_⟩
      · simp only [Display.char]
        rw [if_pos hpos, if_pos hfont,
          show y * d.width + x = (y + 0) * d.width + x by
            rw [Nat.add_zero]]
        exact hrun
      · intro px py hpx hpy hside
        refine hout _ ?_
        intro r col _ hr16 hcol8 he
        have h1 := index_div d.width py px hpx
        have h2 := index_div d.width (y + r) (x + col) (by omega)
        have h3 := index_mod d.width py px hpx
        have h4 := index_mod d.width (y + r) (x + col) (by omega)
        rw [he] at h1 h3
        omega
    · refine ⟨d, ?_, fun _ _ _ _ _ => rfl⟩
      simp only [Display.char]
      rw [if_pos hpos, if_neg hfont]
  · refine ⟨d, ?_, fun _ _ _ _ _ => rfl⟩
    simp only [Display.char]
    rw [if_neg hpos]

theorem char_outside_block_unchanged_witness :
    ((⟨8, 16, List.replicate 128 0⟩ : Display).data.length =
      (⟨8, 16, List.replicate 128 0⟩ : Display).width *
        (⟨8, 16, List.replicate 128 0⟩ : Display).height) ∧
    ∃ d', (⟨8, 16, List.replicate 128 0⟩ : Display).char 0 0 0 3
        (List.replicate 16 255) = some d' ∧
      ∀ px py, px < 8 → py < 16 →
        (px < 0 ∨ 0 + 8 ≤ px ∨ py < 0 ∨ 0 + 16 ≤ py) →
        d'.data[py * 8 + px]? =
          (List.replicate 128 (0 : Nat))[py * 8 + px]? :=
  ⟨by decide,
    char_outside_block_unchanged ⟨8, 16, List.replicate 128 0⟩ 0 0 0 3
      (List.replicate 16 255) (by decide)⟩

/-- C4: when the text-state machine reports `redraw == false` after
consuming the bytes, `write` performs zero pixel work: the display (and
the console state) are returned exactly as they were. -/
theorem write_noop_when_no_redraw (d : Display) (st : ConsoleState)
    (font : List Nat) (h : st.redraw = false) :
    d.write st font = some (d, st) := by
  simp only [Display.write]
  rw [if_neg (by simp [h])]

theorem write_noop_when_no_redraw_witness :
    ((⟨1, 1, false, [false], false, 0, 0, [⟨32, 0, 0, false⟩]⟩ :
        ConsoleState).redraw = false) ∧
    (⟨8, 16, List.replicate 128 0⟩ : Display).write
        ⟨1, 1, false, [false], false, 0, 0, [⟨32, 0, 0, false⟩]⟩
        (List.replicate 16 255) =
      some (⟨8, 16, List.replicate 128 0⟩,
        ⟨1, 1, false, [false], false, 0, 0, [⟨32, 0, 0, false⟩]⟩) :=
  ⟨rfl,
    write_noop_when_no_redraw ⟨8, 16, List.replicate 128 0⟩
      ⟨1, 1, false, [false], false, 0, 0, [⟨32, 0, 0, false⟩]⟩
      (List.replicate 16 255) rfl⟩

/-- The cell-drawing body of `write` as its exact list of primitive
invocations: background rectangle, then the glyph when the character is
not a space, then the underline strip when underlined, with `(bg, fg)`
swapped exactly when the visible cursor sits on the cell. -/
theorem drawBlock_as_ops (d : Display) (st : ConsoleState)
    (font : List Nat) (x y : Nat) (block : Block)
    (hb : st.display.get? (y * st.w + x) = some block) :
    drawBlock d st font x y =
      applyOps d font
        ([DrawOp.rect (x * 8) (y * 16) 8 16
            (if st.cursor ∧ st.y = y ∧ st.x = x then block.fg
             else block.bg)] ++
          (if block.c ≠ 32 then
            [DrawOp.char (x * 8) (y * 16) block.c
              (if st.cursor ∧ st.y = y ∧ st.x = x then block.bg
               else block.fg)]
          else []) ++
          (if block.underlined then
            [DrawOp.rect (x * 8) (y * 16 + 14) 8 1
              (if st.cursor ∧ st.y = y ∧ st.x = x then block.bg
               else block.fg)]
          else [])) := by
  have hbind : ∀ o : Option Display,
      (o >>= fun d => (some d : Option Display)) = o := by
    intro o
    cases o <;> rfl
  simp only [drawBlock]
  rw [hb]
  by_cases hcur : st.cursor ∧ st.y = y ∧ st.x = x <;>
    by_cases hc : block.c = 32 <;>
    cases hu : block.underlined <;>
      simp [applyOps, applyOp, hcur, hc, hu, hbind]

/-- C5: for each cell the renderer reads, `drawBlock` (the per-cell body
of `write`'s loops) performs exactly these primitive calls in exactly
this order: the background `rect(col*8, row*16, 8, 16, bg)`; then
`char(col*8, row*16, character, fg)` iff the character is not the space
(codepoint 32); then the underline `rect(col*8, row*16+14, 8, 1, fg)`
iff the cell is underlined — where `(bg, fg)` are the cell's
`(background, foreground)` swapped exactly when the cursor is visible
and its cell coordinate equals `(col, row)`. -/
theorem drawBlock_op_order (d : Display) (st : ConsoleState)
    (font : List Nat) (x y : Nat) (block : Block)
    (hb : st.display.get? (y * st.w + x) = some block) :
    drawBlock d st font x y =
      applyOps d font
        ([DrawOp.rect (x * 8) (y * 16) 8 16
            (if st.cursor ∧ st.y = y ∧ st.x = x then block.fg
             else block.bg)] ++
          (if block.c ≠ 32 then
            [DrawOp.char (x * 8) (y * 16) block.c
              (if st.cursor ∧ st.y = y ∧ st.x = x then block.bg
               else block.fg)]
          else []) ++
          (if block.underlined then
            [DrawOp.rect (x * 8) (y * 16 + 14) 8 1
              (if st.cursor ∧ st.y = y ∧ st.x = x then block.bg
               else block.fg)]
          else [])) :=
  drawBlock_as_ops d st font x y block hb

theorem drawBlock_op_order_witness :
    ((⟨1, 1, true, [true], false, 0, 0, [⟨65, 2, 1, true⟩]⟩ :
        ConsoleState).display.get? (0 * 1 + 0) = some ⟨65, 2, 1, true⟩) ∧
    drawBlock ⟨8, 16, List.replicate 128 0⟩
        ⟨1, 1, true, [true], false, 0, 0, [⟨65, 2, 1, true⟩]⟩
        (List.replicate 16 255) 0 0 =
      applyOps ⟨8, 16, List.replicate 128 0⟩ (List.replicate 16 255)
        [DrawOp.rect 0 0 8 16 1, DrawOp.char 0 0 65 2,
          DrawOp.rect 0 14 8 1 2] :=
  ⟨rfl,
    drawBlock_op_order ⟨8, 16, List.replicate 128 0⟩
      ⟨1, 1, true, [true], false, 0, 0, [⟨65, 2, 1, true⟩]⟩
      (List.replicate 16 255) 0 0 ⟨65, 2, 1, true⟩ rfl⟩

/-! ### `init` and `init_ap` -/

/-- Is this effect an `identity_map` call? -/
def isMapEffect : InitEffect → Bool
  | InitEffect.identityMap _ _ => true
  | _ => false

/-- Every effect of `init_ap` is a page mapping. -/
theorem init_ap_all_maps (mi : VBEModeInfo) :
    ∀ e ∈ init_ap mi, ∃ f fl, e = InitEffect.identityMap f fl := by
  intro e he
  by_cases h : mi.physbaseptr > 0
  · simp [init_ap, h] at he
    rcases he with he | ⟨f, _, he⟩
    · exact ⟨_, _, he⟩
    · exact ⟨f, _, he.symm⟩
  · simp [init_ap, h] at he
    exact ⟨_, _, he⟩

/-- C7: if the decoded mode-info record has `physbaseptr == 0`, `init`
completes normally with exactly one side effect — mapping the single
mode-info page present+no-execute.  In particular no framebuffer page is
mapped, no memory is zeroed, and the `DISPLAY` registry is never
written, so it remains empty. -/
theorem init_no_framebuffer (mi : VBEModeInfo)
    (h : mi.physbaseptr = 0) :
    init mi =
      [InitEffect.identityMap (frameContaining 0x5200)
        ⟨true, false, true⟩] := by
  simp [init, h]

theorem init_no_framebuffer_witness :
    ((⟨0, 0, 0, 0, 0, 0, 0, 0, 0, 0, 0, 0, 0, 0, 0, 0, 0, 0, 0, 0, 0, 0,
        0, 0, 0, 0, 0, 0, 0, 0, 0, 0⟩ : VBEModeInfo).physbaseptr = 0) ∧
    init ⟨0, 0, 0, 0, 0, 0, 0, 0, 0, 0, 0, 0, 0, 0, 0, 0, 0, 0, 0, 0, 0,
        0, 0, 0, 0, 0, 0, 0, 0, 0, 0, 0⟩ =
      [InitEffect.identityMap (frameContaining 0x5200)
        ⟨true, false, true⟩] :=
  ⟨rfl,
    init_no_framebuffer
      ⟨0, 0, 0, 0, 0, 0, 0, 0, 0, 0, 0, 0, 0, 0, 0, 0, 0, 0, 0, 0, 0, 0,
        0, 0, 0, 0, 0, 0, 0, 0, 0, 0⟩ rfl⟩

/-- C8: for the same mode-info record, `init_ap` performs exactly the
page-mapping effects of `init`, in the same order (the info page, then —
when `physbaseptr != 0` — every framebuffer page present+writable+
no-execute), and nothing else: it never zeros memory and never writes
the `DISPLAY` registry. -/
theorem init_ap_maps_like_init (mi : VBEModeInfo) :
    init_ap mi = (init mi).filter (fun e => isMapEffect e) ∧
    (∀ e ∈ init_ap mi, ∀ s l, e ≠ InitEffect.memsetZero s l) ∧
    (∀ e ∈ init_ap mi, ∀ wd ht s, e ≠ InitEffect.registryStore wd ht s) := by
  refine ⟨?_, ?_, ?_⟩
  · by_cases h : mi.physbaseptr > 0
    · simp only [init, init_ap, if_pos h, List.filter_cons]
      have hmaps : ∀ (l : List Nat) (rest : List InitEffect),
          rest.filter (fun e => isMapEffect e) = [] →
          ((l.map fun f => InitEffect.identityMap f ⟨true, true, true⟩) ++
              rest).filter (fun e => isMapEffect e) =
            l.map fun f => InitEffect.identityMap f ⟨true, true, true⟩ := by
        intro l rest hrest
        induction l with
        | nil => simpa using hrest
        | cons a l ih => simpa [isMapEffect] using ih
      rw [hmaps _ _ (by simp [isMapEffect])]
      simp [isMapEffect]
    · simp [init, init_ap, h, isMapEffect]
  · intro e he s l
    obtain ⟨f, fl, rfl⟩ := init_ap_all_maps mi e he
    exact fun hne => InitEffect.noConfusion hne
  · intro e he wd ht s
    obtain ⟨f, fl, rfl⟩ := init_ap_all_maps mi e he
    exact fun hne => InitEffect.noConfusion hne

/-! ### Band preservation for the dirty-row renderer -/

/-- `d'` has the same dimensions and buffer length as `d` and agrees with
`d` on every pixel whose row lies outside the band `[lo, hi)`. -/
def BandPreserves (d d' : Display) (lo hi : Nat) : Prop :=
  d'.width = d.width ∧ d'.height = d.height ∧
  d'.data.length = d.data.length ∧
  ∀ i, (i / d.width < lo ∨ hi ≤ i / d.width) → d'.data[i]? = d.data[i]?

theorem bandPreserves_refl (d : Display) (lo hi : Nat) :
    BandPreserves d d lo hi :=
  ⟨rfl, rfl, rfl, fun _ _ => rfl⟩

theorem bandPreserves_trans {d d1 d2 : Display} {lo hi : Nat}
    (h1 : BandPreserves d d1 lo hi) (h2 : BandPreserves d1 d2 lo hi) :
    BandPreserves d d2 lo hi := by
  obtain ⟨hw1, hh1, hl1, hp1⟩ := h1
  obtain ⟨hw2, hh2, hl2, hp2⟩ := h2
  refine ⟨hw2.trans hw1, hh2.trans hh1, hl2.trans hl1, ?_⟩
  intro i hb
  have hb1 : i / d1.width < lo ∨ hi ≤ i / d1.width := by rw [hw1]; exact hb
  rw [hp2 i hb1, hp1 i hb]

/-- A `rect` whose clamped row range lies inside `[lo, hi)` preserves
every pixel outside the band. -/
theorem rect_frame (d : Display) (x y w h color lo hi : Nat)
    (hw : 1 ≤ d.width) (hh : 1 ≤ d.height)
    (hdata : d.data.length = d.width * d.height)
    (hlo1 : lo ≤ y) (hlo2 : lo + 1 ≤ d.height) (hhi : y + h ≤ hi) :
    ∃ d', d.rect x y w h color = some d' ∧ BandPreserves d d' lo hi := by
  obtain ⟨d', hrun, hw', hh', hl', hchar⟩ :=
    rect_spec d x y w h color hw hh hdata
  refine ⟨d', hrun, hw', hh', hl', ?_⟩
  intro i hb
  rw [hchar i, if_neg (by omega)]

/-- A `char` at row `y` with `[y, y+16) ⊆ [lo, hi)` preserves every pixel
outside the band. -/
theorem char_frame (d : Display) (x y c color lo hi : Nat)
    (font : List Nat)
    (hdata : d.data.length = d.width * d.height)
    (hlo : lo ≤ y) (hhi : y + 16 ≤ hi) :
    ∃ d', d.char x y c color font = some d' ∧ BandPreserves d d' lo hi := by
  by_cases hpos : x + 8 ≤ d.width ∧ y + 16 ≤ d.height
  · by_cases hfont : 16 * c + 16 ≤ font.length
    · obtain ⟨d', hrun, hw', hh', hl', _, hout⟩ :=
        charRows_spec font (16 * c) color x y 16 0 d hdata hpos.1
          (by omega)
      refine ⟨d', ?_, hw', hh', hl', ?_⟩
      · simp only [Display.char]
        rw [if_pos hpos, if_pos hfont,
          show y * d.width + x = (y + 0) * d.width + x by
            rw [Nat.add_zero]]
        exact hrun
      · intro i hb
        refine hout i ?_
        intro r col _ hr16 hcol8 he
        have h2 := index_div d.width (y + r) (x + col) (by omega)
        rw [← he] at h2
        omega
    · refine ⟨d, ?_, bandPreserves_refl d lo hi⟩
      simp only [Display.char]
      rw [if_pos hpos, if_neg hfont]
  · refine ⟨d, ?_, bandPreserves_refl d lo hi⟩
    simp only [Display.char]
    rw [if_neg hpos]

/-- The inclusive vertical extent of one primitive invocation. -/
def opYRange (op : DrawOp) : Nat × Nat :=
  match op with
  | DrawOp.rect _ y _ h _ => (y, y + h)
  | DrawOp.char _ y _ _ => (y, y + 16)

/-- Running a list of primitives whose vertical extents all lie inside
`[lo, hi)` succeeds and preserves every pixel outside the band. -/
theorem applyOps_band (font : List Nat) (lo hi : Nat) :
    ∀ (ops : List DrawOp) (d : Display),
      1 ≤ d.width → 1 ≤ d.height →
      d.data.length = d.width * d.height →
      lo + 1 ≤ d.height →
      (∀ op ∈ ops, lo ≤ (opYRange op).1 ∧ (opYRange op).2 ≤ hi) →
      ∃ d', applyOps d font ops = some d' ∧ BandPreserves d d' lo hi := by
  intro ops
  induction ops with
  | nil =>
    intro d _ _ _ _ _
    exact ⟨d, rfl, bandPreserves_refl d lo hi⟩
  | cons op ops ih =>
    intro d h1 h2 h3 h4 hops
    obtain ⟨d1, hr1, hb1⟩ : ∃ d1, applyOp d font op = some d1 ∧
        BandPreserves d d1 lo hi := by
      cases op with
      | rect ox oy ow oh oc =>
        exact rect_frame d ox oy ow oh oc lo hi h1 h2 h3
          (hops _ (List.mem_cons_self _ _)).1 h4
          (hops _ (List.mem_cons_self _ _)).2
      | char ox oy occ oc =>
        exact char_frame d ox oy occ oc lo hi font h3
          (hops _ (List.mem_cons_self _ _)).1
          (hops _ (List.mem_cons_self _ _)).2
    obtain ⟨d', hr', hb'⟩ :=
      ih d1 (by rw [hb1.1]; omega) (by rw [hb1.2.1]; omega)
        (by rw [hb1.2.2.1, hb1.1, hb1.2.1]; exact h3)
        (by rw [hb1.2.1]; omega)
        (fun op hm => hops op (List.mem_cons_of_mem _ hm))
    refine ⟨d', ?_, bandPreserves_trans hb1 hb'⟩
    simp only [applyOps]
    rw [hr1]
    exact hr'

/-- Drawing one cell of console row `y` succeeds and only touches pixels
of that row's 16-pixel band. -/
theorem drawBlock_band (d : Display) (st : ConsoleState)
    (font : List Nat) (x y : Nat)
    (hdata : d.data.length = d.width * d.height)
    (hx8 : x * 8 + 8 ≤ d.width)
    (hy16 : y * 16 + 16 ≤ d.height)
    (hblock : y * st.w + x < st.display.length) :
    ∃ d', drawBlock d st font x y = some d' ∧
      BandPreserves d d' (y * 16) (y * 16 + 16) := by
  obtain ⟨block, hbk⟩ : ∃ b, st.display.get? (y * st.w + x) = some b := by
    rw [List.get?_eq_getElem?, List.getElem?_eq_getElem hblock]
    exact ⟨_, rfl⟩
  rw [drawBlock_as_ops d st font x y block hbk]
  refine applyOps_band font (y * 16) (y * 16 + 16) _ d (by omega) (by omega)
    hdata (by omega) ?_
  intro op hm
  rcases List.mem_append.mp hm with hm12 | hm3
  · rcases List.mem_append.mp hm12 with hm1 | hm2
    · rw [List.mem_singleton.mp hm1]
      exact ⟨Nat.le_refl _, Nat.le_refl _⟩
    · by_cases hc : block.c ≠ 32
      · rw [if_pos hc] at hm2
        rw [List.mem_singleton.mp hm2]
        exact ⟨Nat.le_refl _, Nat.le_refl _⟩
      · rw [if_neg hc] at hm2
        exact absurd hm2 (List.not_mem_nil op)
  · by_cases hu : block.underlined
    · rw [if_pos hu] at hm3
      rw [List.mem_singleton.mp hm3]
      exact ⟨Nat.le_add_right _ 14,
        show y * 16 + 14 + 1 ≤ y * 16 + 16 by omega⟩
    · rw [if_neg hu] at hm3
      exact absurd hm3 (List.not_mem_nil op)

/-- The column loop over a changed row `y` succeeds and only touches
pixels of that row's band. -/
theorem colLoop_band (st : ConsoleState) (font : List Nat) (y : Nat) :
    ∀ (cols x : Nat) (d : Display),
      d.data.length = d.width * d.height →
      st.w * 8 ≤ d.width →
      y * 16 + 16 ≤ d.height →
      st.display.length = st.w * st.h →
      x + cols ≤ st.w →
      y < st.h →
      ∃ d', colLoop d st font y x cols = some d' ∧
        BandPreserves d d' (y * 16) (y * 16 + 16) := by
  intro cols
  induction cols with
  | zero =>
    intro x d _ _ _ _ _ _
    exact ⟨d, rfl, bandPreserves_refl d _ _⟩
  | succ n ih =>
    intro x d hdata hw8 hy16 hdisp hxc hyh
    have hx8 : x * 8 + 8 ≤ d.width := by omega
    have hblock : y * st.w + x < st.display.length := by
      rw [hdisp]
      have h1 : (y + 1) * st.w ≤ st.h * st.w :=
        Nat.mul_le_mul_right _ (by omega)
      have h2 : (y + 1) * st.w = y * st.w + st.w := Nat.succ_mul _ _
      have h3 : st.w * st.h = st.h * st.w := Nat.mul_comm _ _
      omega
    obtain ⟨d1, hr1, hb1⟩ :=
      drawBlock_band d st font x y hdata hx8 hy16 hblock
    obtain ⟨d', hr', hb'⟩ :=
      ih (x + 1) d1
        (by rw [hb1.2.2.1, hb1.1, hb1.2.1]; exact hdata)
        (by rw [hb1.1]; exact hw8)
        (by rw [hb1.2.1]; exact hy16)
        hdisp (by omega) hyh
    refine ⟨d', ?_, bandPreserves_trans hb1 hb'⟩
    simp only [colLoop]
    rw [hr1]
    exact hr'

/-- The row loop of `write` starting at row `y` succeeds and leaves
untouched every pixel whose band is below `y`, at or beyond `y + rows`,
or not marked changed in the console state it is given. -/
theorem rowLoop_band (font : List Nat) :
    ∀ (rows y : Nat) (d : Display) (st : ConsoleState),
      d.data.length = d.width * d.height →
      st.w * 8 ≤ d.width →
      st.h * 16 ≤ d.height →
      st.display.length = st.w * st.h →
      st.changed.length = st.h →
      y + rows ≤ st.h →
      ∃ d' st', rowLoop d st font y rows = some (d', st') ∧
        d'.width = d.width ∧ d'.height = d.height ∧
        d'.data.length = d.data.length ∧
        ∀ i, (i / d.width / 16 < y ∨ y + rows ≤ i / d.width / 16 ∨
            st.changed.get? (i / d.width / 16) ≠ some true) →
          d'.data[i]? = d.data[i]? := by
  intro rows
  induction rows with
  | zero =>
    intro y d st _ _ _ _ _ _
    exact ⟨d, st, rfl, rfl, rfl, rfl, fun i _ => rfl⟩
  | succ n ih =>
    intro y d st hdata hw8 hh16 hdisp hch hyr
    have hylt : y < st.changed.length := by omega
    obtain ⟨c, hc⟩ : ∃ c, st.changed.get? y = some c := by
      rw [List.get?_eq_getElem?, List.getElem?_eq_getElem hylt]
      exact ⟨_, rfl⟩
    cases c with
    | true =>
      have hy16 : y * 16 + 16 ≤ d.height := by
        have h1 : (y + 1) * 16 ≤ st.h * 16 :=
          Nat.mul_le_mul_right _ (by omega)
        omega
      obtain ⟨d1, hr1, hb1⟩ :=
        colLoop_band { st with changed := st.changed.set y false } font y
          st.w 0 d hdata hw8 hy16 hdisp
          (by show 0 + st.w ≤ st.w; omega) (by show y < st.h; omega)
      obtain ⟨d', st', hr', hw', hh', hl', hp'⟩ :=
        ih (y + 1) d1 { st with changed := st.changed.set y false }
          (by rw [hb1.2.2.1, hb1.1, hb1.2.1]; exact hdata)
          (by rw [hb1.1]; exact hw8)
          (by rw [hb1.2.1]; exact hh16)
          hdisp (by show (st.changed.set y false).length = st.h; simpa using hch)
          (by show y + 1 + n ≤ st.h; omega)
      refine ⟨d', st', ?_, hw'.trans hb1.1, hh'.trans hb1.2.1,
        hl'.trans hb1.2.2.1, ?_⟩
      · have hG : rowLoop d st font y (n + 1) =
            (st.changed.get? y).bind fun c =>
              if c = true then
                (colLoop d { st with changed := st.changed.set y false }
                    font y 0 st.w).bind fun d1 =>
                  rowLoop d1 { st with changed := st.changed.set y false }
                    font (y + 1) n
              else rowLoop d st font (y + 1) n := rfl
        have hmain : (colLoop d
              { st with changed := st.changed.set y false }
              font y 0 st.w).bind
            (fun d1 => rowLoop d1
              { st with changed := st.changed.set y false } font (y + 1)
              n) =
            some (d', st') := by
          rw [hr1]
          exact hr'
        rw [hG, hc]
        exact hmain
      · intro i hcond
        have hdm := Nat.div_add_mod (i / d.width) 16
        have hm16 : (i / d.width) % 16 < 16 := Nat.mod_lt _ (by omega)
        have hwd1 : d1.width = d.width := hb1.1
        by_cases hby : i / d.width / 16 = y
        · rcases hcond with h | h | h
          · omega
          · omega
          · rw [hby] at h
            exact absurd hc h
        · have hstep1 : d1.data[i]? = d.data[i]? :=
            hb1.2.2.2 i (by omega)
          have hstep2 : d'.data[i]? = d1.data[i]? := by
            refine hp' i ?_
            rcases hcond with h | h | h
            · left
              rw [hwd1]
              omega
            · right
              left
              rw [hwd1]
              omega
            · right
              right
              rw [hwd1]
              show (st.changed.set y false).get?
                  (i / d.width / 16) ≠ some true
              rw [List.get?_set_ne false st.changed
                (fun he => hby he.symm)]
              exact h
          rw [hstep2, hstep1]
    | false =>
      obtain ⟨d', st', hr', hw', hh', hl', hp'⟩ :=
        ih (y + 1) d st hdata hw8 hh16 hdisp hch (by omega)
      refine ⟨d', st', ?_, hw', hh', hl', ?_⟩
      · have hG : rowLoop d st font y (n + 1) =
            (st.changed.get? y).bind fun c =>
              if c = true then
                (colLoop d { st with changed := st.changed.set y false }
                    font y 0 st.w).bind fun d1 =>
                  rowLoop d1 { st with changed := st.changed.set y false }
                    font (y + 1) n
              else rowLoop d st font (y + 1) n := rfl
        rw [hG, hc]
        exact hr'
      · intro i hcond
        refine hp' i ?_
        by_cases hby : i / d.width / 16 = y
        · left
          omega
        · rcases hcond with h | h | h
          · left
            omega
          · right
            left
            omega
          · right
            right
            exact h

/-- C3: when the text-state machine reports `redraw = true`, a single
`write` call modifies pixels only inside the 16-pixel-high horizontal
bands `[row*16, row*16+16)` of the rows whose `changed` flag is `true`:
every pixel whose band index `py / 16` is not a changed row (including
every band past the cell grid) has the same value after the call as
before.  The hypotheses are the invariants of the `Display`
construction: the console grid is `width/8 × height/16` cells (so
`w*8 ≤ width` and `h*16 ≤ height`), the cell grid holds `w*h` blocks,
and there is one `changed` flag per row. -/
theorem write_touches_only_changed_bands (d : Display)
    (st : ConsoleState) (font : List Nat)
    (hredraw : st.redraw = true)
    (hdata : d.data.length = d.width * d.height)
    (hw8 : st.w * 8 ≤ d.width)
    (hh16 : st.h * 16 ≤ d.height)
    (hdisp : st.display.length = st.w * st.h)
    (hch : st.changed.length = st.h) :
    ∃ d' st', d.write st font = some (d', st') ∧
      d'.data.length = d.data.length ∧
      ∀ i, st.changed.get? (i / d.width / 16) ≠ some true →
        d'.data[i]? = d.data[i]? := by
  obtain ⟨d', st', hr, hw', hh', hl', hp⟩ :=
    rowLoop_band font st.h 0 d { st with redraw := false } hdata hw8 hh16
      hdisp hch (by show 0 + st.h ≤ st.h; omega)
  refine ⟨d', st', ?_, hl', ?_⟩
  · simp only [Display.write]
    rw [if_pos hredraw]
    exact hr
  · intro i hne
    exact hp i (Or.inr (Or.inr hne))

theorem write_touches_only_changed_bands_witness :
    ((⟨1, 2, true, [true, false], false, 0, 0,
        [⟨65, 2, 1, false⟩, ⟨66, 3, 4, true⟩]⟩ :
        ConsoleState).redraw = true) ∧
    ((⟨8, 32, List.replicate 256 0⟩ : Display).data.length = 8 * 32) ∧
    (1 * 8 ≤ 8) ∧ (2 * 16 ≤ 32) ∧ (2 = 1 * 2) ∧ (2 = 2) ∧
    ∃ d' st',
      (⟨8, 32, List.replicate 256 0⟩ : Display).write
          ⟨1, 2, true, [true, false], false, 0, 0,
            [⟨65, 2, 1, false⟩, ⟨66, 3, 4, true⟩]⟩
          (List.replicate 4096 255) =
        some (d', st') ∧
      d'.data.length = (List.replicate 256 (0 : Nat)).length ∧
      ∀ i, ([true, false] : List Bool).get? (i / 8 / 16) ≠ some true →
        d'.data[i]? = (List.replicate 256 (0 : Nat))[i]? :=
  ⟨rfl, by simp, by omega, by omega, by omega, rfl,
    write_touches_only_changed_bands ⟨8, 32, List.replicate 256 0⟩
      ⟨1, 2, true, [true, false], false, 0, 0,
        [⟨65, 2, 1, false⟩, ⟨66, 3, 4, true⟩]⟩
      (List.replicate 4096 255) rfl (by simp) (by decide) (by decide)
      (by simp) rfl⟩
